import Mathlib

/-!
Verification of the `arc`/`moss` package manager (Rust sources under `src/`)
against its natural-language specification.

Shallow embedding conventions:
* Rust `String`/`&str` values are modelled as `List Char` (`Str` below);
  non-ASCII byte/char-boundary distinctions are out of scope and are noted
  where they matter.
* Filesystem state is passed explicitly (directory listings as lists of
  entries, file contents as `Str`).
* Fallible Rust functions returning `Result` become `Except String`;
  a Rust panic (`unwrap`/slice out of bounds) is modelled as a dedicated
  constructor or `Option.none`, distinct from `Except.error`.
-/

namespace Arc

/-- Rust strings, modelled as lists of characters. -/
abbrev Str := List Char

/-- Convert a Lean string literal to the model representation. -/
def str (s : String) : Str := s.data

/-- The newline character, used by manifest files (one path per line). -/
def nl : Char := '\n'

/-- Model of Rust `str::contains(pat)`: `pat` occurs as a contiguous
substring of `s`.  Mirrors the substring search used by `is_tracked`
(src/actions.rs:61) and by the manifest rewriting in `install_all`. -/
def str_contains (s pat : Str) : Bool :=
  match s with
  | [] => pat.isEmpty
  | _ :: cs => pat.isPrefixOf s || str_contains cs pat

/-- Model of `url.split('/').last().unwrap()` (src/actions.rs:786):
the characters after the last `'/'` (the whole string when there is none). -/
def last_segment (s : Str) : Str :=
  s.foldl (fun acc c => if c = '/' then [] else acc ++ [c]) []

/-- Model of shell-style glob matching on a single path component, as used by
the `glob` crate for the patterns the program builds (`<name>@<version>`,
`<name>@*`): literal characters plus the `*` wildcard, which matches any
sequence of characters (the names matched here are single path components,
so the crate's `*`-does-not-cross-`/` rule does not come into play). -/
def glob_match : Str → Str → Bool
  | [], s => s.isEmpty
  | p :: ps, s =>
      if p = '*' then s.tails.any (fun t => glob_match ps t)
      else
        match s with
        | [] => false
        | c :: cs => p == c && glob_match ps cs

/-- One entry of an installed-manifest directory: the file name
(`<name>@<version>`) and its contents (one path per line). -/
structure ManifestFile where
  name : Str
  content : Str
deriving DecidableEq

/-- Directory where `is_installed`, `is_tracked` and the builder's manifest
generation operate (src/actions.rs:52, src/actions.rs:58, src/actions.rs:553). -/
def arc_installed_dir : Str := str "/var/cache/arc/installed"

/-- Directory where startup (src/main.rs:23), `list` (src/lib.rs:138),
`upgrade` (src/lib.rs:214) and `remove` (src/lib.rs:394,411) operate. -/
def moss_installed_dir : Str := str "/var/cache/moss/installed"

/-- Directory in which `build_all` creates the package manifest, relative to
the destdir: `format!("{dest_dir}/var/cache/arc/installed")`
(src/actions.rs:553). -/
def build_manifest_dir (dest_dir : Str) : Str :=
  dest_dir ++ str "/var/cache/arc/installed"

/-- System state relevant to the installed-manifest queries: the entries of
the two installed-manifest directories. -/
structure SysFS where
  arcInstalled : List ManifestFile
  mossInstalled : List ManifestFile
deriving DecidableEq

/-- Model of `is_installed` (src/actions.rs:51-54): glob
`/var/cache/arc/installed/{pack}@{version}` and test whether it has a first
match.  The directory component is literal, so this is glob matching of
`{pack}@{version}` against the entries of the arc installed directory. -/
def is_installed (fs : SysFS) (pack version : Str) : Bool :=
  fs.arcInstalled.any (fun m => glob_match (pack ++ ['@'] ++ version) m.name)

/-- Model of `is_tracked` (src/actions.rs:57-67): scan the entries of
`/var/cache/arc/installed/` in directory order and return the name of the
first manifest whose contents contain `{file}\n` as a substring. -/
def is_tracked (file : Str) (arc : List ManifestFile) : Option Str :=
  match arc with
  | [] => none
  | m :: rest =>
      if str_contains m.content (file ++ [nl]) then some m.name
      else is_tracked file rest

/-- Actions taken by `remove` (src/lib.rs:410-436) for a single manifest line:
whether `rmdir` was attempted and whether `rm` was invoked. -/
structure RemoveFileOps where
  rmdirTried : Bool
  rmTried : Bool
deriving DecidableEq

/-- Per-line decision of `remove` (src/lib.rs:410-436).  The line is skipped
when it equals `/var/cache/moss/installed`; otherwise `rmdir` is always
attempted (failures ignored), and then `rm` is invoked unless `is_tracked`
reports the path as tracked and the path is a symlink.  `isSym` gives the
result of `fs::symlink_metadata(file)` (the model assumes every manifest path
exists, so the metadata call succeeds). -/
def remove_step (arc : List ManifestFile) (isSym : Str → Bool) (file : Str) :
    RemoveFileOps :=
  if file = moss_installed_dir then ⟨false, false⟩
  else
    match is_tracked file arc with
    | some _ => ⟨true, !isSym file⟩
    | none => ⟨true, true⟩

/-- The manifest lines on which `remove` invokes `rm`, in processing order.
`remove` iterates the manifest lines in reverse (src/lib.rs:410). -/
def remove_rm_loop (arc : List ManifestFile) (isSym : Str → Bool) :
    List Str → List Str
  | [] => []
  | f :: rest =>
      if (remove_step arc isSym f).rmTried then
        f :: remove_rm_loop arc isSym rest
      else
        remove_rm_loop arc isSym rest

/-- Files deleted with `rm` by `remove` over a whole manifest (lines in
manifest order; the loop processes them in reverse). -/
def remove_rms (arc : List ManifestFile) (isSym : Str → Bool)
    (manifestLines : List Str) : List Str :=
  remove_rm_loop arc isSym manifestLines.reverse

/-- Outcome of the start of `remove` for one package name
(src/lib.rs:387-397): the `is_installed` precondition check against the arc
directory, then the manifest glob over the moss directory whose first match
is taken with `.unwrap()` — `panicked` models that unwrap on an empty glob. -/
inductive RemoveLookup where
  | notInstalledError
  | panicked
  | proceeded (manifestName : Str)
deriving DecidableEq

/-- Model of src/lib.rs:387-397: `remove` first requires
`is_installed(pack, "*")` (which consults `/var/cache/arc/installed`), then
globs `/var/cache/moss/installed/{pack}@*` and unwraps the first match. -/
def remove_lookup (fs : SysFS) (pack : Str) : RemoveLookup :=
  if !is_installed fs pack (str "*") then .notInstalledError
  else
    match (fs.mossInstalled.filter
        (fun m => glob_match (pack ++ str "@*") m.name)).head? with
    | none => .panicked
    | some m => .proceeded m.name

/-- First component of `n.split('@')`: the owner package name extracted from
a manifest file name in `install_all` (src/actions.rs:630). -/
def split_at_sign_head (s : Str) : Str := s.takeWhile (fun c => c ≠ '@')

/-- Conflict test of the installer's conflict pass (src/actions.rs:628-633):
for a staged manifest line, a conflict prompt is raised exactly when
`is_tracked` reports an owner, the path exists as a regular file on the live
system (`isFile`), and the owner's package name differs from the package
being installed.  Returns the owning manifest name when a prompt is raised. -/
def conflict_owner (arc : List ManifestFile) (name line : Str) (isFile : Bool) :
    Option Str :=
  match is_tracked line arc with
  | some n =>
      if isFile && decide (split_at_sign_head n ≠ name) then some n else none
  | none => none

/-- Result of `download_one` (src/actions.rs:770-860) for a single source
URL.  `panic` models the out-of-bounds slice `&url[3..4]`; the other
constructors record which branch of the dispatch runs (cached skip, HTTP
download, the git bail, or the local-file copy). -/
inductive DlStep where
  | panic
  | skipped (fname : Str)
  | http (url fname : Str)
  | gitUnsupported (url : Str)
  | localCopy (url fname : Str)
deriving DecidableEq

/-- Dispatch of `download_one` for one URL (src/actions.rs:782-856).
`dlDir` is `format!("{}/dl", *CACHE)`; `cached` tells whether
`fs::metadata(filename)` succeeds.  Steps, in source order:
1. `filename = {dlDir}/{url.split('/').last()}` (computed from the original
   URL, prefix included);
2. `&url[3..4] == "+"` — a byte slice that panics when the URL is shorter
   than 4 bytes (chars are treated as single bytes here; the model is exact
   for ASCII URLs); on match the first four chars are stripped;
3. skip if cached and not forced;
4. dispatch on the *stripped* URL: `https://`/`http://` download,
   `git+` bail, otherwise local copy. -/
def download_one_step (dlDir : Str) (cached : Str → Bool) (force : Bool)
    (url : Str) : DlStep :=
  let filename := dlDir ++ ['/'] ++ last_segment url
  if url.length < 4 then .panic
  else
    let stripped := if url.get? 3 = some '+' then url.drop 4 else url
    if cached filename && !force then .skipped filename
    else if (str "https://").isPrefixOf stripped
         || (str "http://").isPrefixOf stripped then .http stripped filename
    else if (str "git+").isPrefixOf stripped then .gitUnsupported stripped
    else .localCopy stripped filename

/-- In-memory package data (src/actions.rs:25-48).  The `meta` table is
flattened into `version` and `checksums` (the source-URL list is passed to
`download_one` directly and is not needed here); `deps` and `mkdeps` are
association lists (the Rust `HashMap` iterates in arbitrary order, so the
model fixes an order and all theorems quantify over it); `sources` holds the
cached file paths returned by `download_one` (possibly carrying the `tar+`
marker). -/
structure Pkg where
  name : Str
  version : Str
  depth : Nat
  deps : List (Str × Str)
  mkdeps : List (Str × Str)
  sources : List Str
  checksums : List Str
deriving DecidableEq

/-- Model of `verify_checksums` (src/actions.rs:863-897): fail when there are
fewer checksums than sources; then zip sources with checksums (excess
checksums ignored), strip a `xxx+` prefix from the cached path, hash the file
(`hashOf` stands for `blake3::hash(fs::read(file))`), and compare with the
expected sum after removing every `"` character. -/
def verify_checksums (hashOf : Str → Str) (fnames checksums : List Str) :
    Except String Unit :=
  if checksums.length < fnames.length then
    .error "Missing one or more checksums"
  else
    go (fnames.zip checksums)
where
  go : List (Str × Str) → Except String Unit
    | [] => .ok ()
    | (file, sum) :: rest =>
        let file := if file.get? 3 = some '+' then file.drop 4 else file
        if hashOf file ≠ sum.filter (fun c => c ≠ '\"') then
          .error "Checksum mismatch"
        else go rest

/-- Observable steps of the `build` command used to state ordering
properties. -/
inductive BuildStep where
  | verified (name : Str)
  | scratchCreated (name : Str)
  | built (name : Str)
  | installed (name : Str)
deriving DecidableEq

/-- Model of `checksums_all` (src/actions.rs:421-431): verify each package's
sources against its declared checksums, in order, recording a `verified`
event per package. -/
def checksums_all (hashOf : Str → Str) : List Pkg → Except String (List BuildStep)
  | [] => .ok []
  | p :: rest => do
      let _ ← verify_checksums hashOf p.sources p.checksums
      let es ← checksums_all hashOf rest
      .ok (.verified p.name :: es)

/-- Events of `build_all` (src/actions.rs:444-604) per package, abstracted to
the claim-relevant steps: the scratch directories `<cache>/build/<name>/{src,dest}`
are created first (src/actions.rs:455-459), then the package is built.
Build-script execution is assumed to succeed (script failure is outside the
checksum-ordering claim). -/
def build_all_trace (ps : List Pkg) : List BuildStep :=
  ps.flatMap (fun p => [.scratchCreated p.name, .built p.name])

/-- Layer splitting of a depth-sorted package list (src/lib.rs:303-314 and
345): a new segment starts whenever a package's depth is strictly below the
depth at the current segment's start. -/
def layer_split_go (ref : Nat) (cur : List Pkg) : List Pkg → List (List Pkg)
  | [] => [cur]
  | q :: rest =>
      if q.depth < ref then cur :: layer_split_go q.depth [q] rest
      else layer_split_go ref (cur ++ [q]) rest

/-- Split a package list into layers as the `build` command does; the empty
list yields no layers (guarded by `len() > 0` in the source). -/
def layer_split : List Pkg → List (List Pkg)
  | [] => []
  | p :: rest => layer_split_go p.depth [p] rest

/-- Build-and-install trace of one group of dependencies, layer by layer
(src/lib.rs:317-326 and 348-359). -/
def layered_build_install (ps : List Pkg) : List BuildStep :=
  (layer_split ps).flatMap
    (fun seg => build_all_trace seg ++ seg.map (fun p => .installed p.name))

/-- Model of the `build` command pipeline after the summary and downloads
(src/lib.rs:292-370): verify checksums of the explicit packages and of the
runtime dependencies (src/lib.rs:294-295 — the make-dependency group is
never passed to `checksums_all`), then build and install make-dependency
layers, then dependency layers, then build and install the explicit
packages. -/
def build_cmd (hashOf : Str → Str) (packs deps mkdeps : List Pkg) :
    Except String (List BuildStep) := do
  let v1 ← checksums_all hashOf packs
  let v2 ← checksums_all hashOf deps
  let mktr := layered_build_install mkdeps
  let dtr := layered_build_install deps
  let ptr := build_all_trace packs
  .ok (v1 ++ v2 ++ mktr ++ dtr ++ ptr ++ packs.map (fun p => .installed p.name))

/-- Kind of a filesystem object returned by the destdir glob. -/
inductive FileType where
  | regular
  | directory
  | symlink
deriving DecidableEq

/-- One entry returned by `glob("{dest_dir}/**/*")` in `build_all`
(src/actions.rs:576): a full path below the destdir together with its kind.
The glob yields directories and symlinks as well as regular files. -/
structure DestEntry where
  path : Str
  ftype : FileType
deriving DecidableEq

/-- Fuel-indexed worker for `remove_occs`; called with `fuel ≥ s.length`,
which is maintained because a match consumes at least one character. -/
def remove_occs_go (pat : Str) : Nat → Str → Str
  | _, [] => []
  | 0, s => s
  | fuel + 1, c :: cs =>
      if pat ≠ [] ∧ pat.isPrefixOf (c :: cs) then
        remove_occs_go pat fuel ((c :: cs).drop pat.length)
      else
        c :: remove_occs_go pat fuel cs

/-- Model of Rust `str::replace(pat, "")`: remove every (leftmost,
non-overlapping) occurrence of `pat` from `s`. -/
def remove_occs (pat s : Str) : Str := remove_occs_go pat s.length s

/-- Manifest contents written by `build_all` (src/actions.rs:574-579): for
each glob entry, the line `format!("{}\n", path)` with every occurrence of
the destdir string removed, concatenated in glob order. -/
def manifest_content (destDir : Str) (entries : List DestEntry) : Str :=
  (entries.map (fun e => remove_occs destDir (e.path ++ [nl]))).flatten

/-- Split a string into newline-terminated lines (the final fragment, if not
newline-terminated, forms a last line). -/
def split_lines : Str → List Str
  | [] => []
  | c :: cs =>
      if c = nl then [] :: split_lines cs
      else
        match split_lines cs with
        | [] => [[c]]
        | l :: ls => (c :: l) :: ls

/-- Environment of the privilege-elevation logic in `install_all`
(src/actions.rs:665-677): the configured `su_cmd`, the existence of the three
probed helper binaries, and whether the effective user is root. -/
structure ElevEnv where
  su_cmd : Option Str
  have_sudo : Bool
  have_doas : Bool
  have_ssu : Bool
  is_root : Bool
deriving DecidableEq

/-- Selection of the elevation command (src/actions.rs:665-675): a configured
`su_cmd` is taken verbatim; otherwise the first of `/bin/sudo`, `/bin/doas`,
`/bin/ssu` that exists; otherwise the empty string. -/
def su_command (e : ElevEnv) : Str :=
  match e.su_cmd with
  | some x => x
  | none =>
      if e.have_sudo then str "sudo"
      else if e.have_doas then str "doas"
      else if e.have_ssu then str "ssu"
      else []

/-- How the placement commands of one package are run. -/
inductive Placement where
  | asRoot (pack : Str)
  | elevated (cmd pack : Str)
deriving DecidableEq

/-- Placement loop of `install_all` (src/actions.rs:681-764): per package,
run the find/mkdir/cp commands directly when root; otherwise elevate with
the selected command — but only `sudo`, `doas` and `ssu` are handled, every
other value hits the `_ => bail!("Couldn't find a command to elevate
privileges")` arm. -/
def install_placements (e : ElevEnv) : List Str → Except String (List Placement)
  | [] => .ok []
  | pack :: rest => do
      let p ←
        if e.is_root then
          Except.ok (Placement.asRoot pack)
        else if su_command e = str "sudo" ∨ su_command e = str "doas"
             ∨ su_command e = str "ssu" then
          Except.ok (Placement.elevated (su_command e) pack)
        else
          Except.error "Couldn't find a command to elevate privileges"
      let ps ← install_placements e rest
      .ok (p :: ps)

/-- The inner fold of `consolidate_deps` (src/actions.rs:405-412): starting
from copy `i`, scan the whole input and keep the copy with the same name and
a strictly greater depth. -/
def best_copy (input : List Pkg) (i : Pkg) : Pkg :=
  input.foldl
    (fun pack j => if j.name = pack.name ∧ pack.depth < j.depth then j else pack)
    i

/-- The outer loop of `consolidate_deps` (src/actions.rs:395-418): walk the
input, skipping any package whose name is already in the output, otherwise
appending the highest-depth copy of it. -/
def consolidate_go (input : List Pkg) : List Pkg → List Pkg → List Pkg
  | [], out => out
  | i :: rest, out =>
      if out.any (fun j => j.name == i.name) then consolidate_go input rest out
      else consolidate_go input rest (out ++ [best_copy input i])

/-- Model of `consolidate_deps` (src/actions.rs:395-418): remove duplicate
packages, keeping the copy with the highest depth. -/
def consolidate_deps (input : List Pkg) : List Pkg := consolidate_go input input []

/-- Descending sort by depth, modelling
`sort_by(|a, b| a.depth.cmp(&b.depth).reverse())` (src/actions.rs:388-389);
both are stable sorts, so the results coincide. -/
def sort_by_depth_desc (l : List Pkg) : List Pkg :=
  l.insertionSort (fun a b => b.depth ≤ a.depth)

/-- One edge loop of `resolve_deps` (src/actions.rs:307-334 for `deps`,
src/actions.rs:336-364 for `mkdeps`; the two loops are identical except for
where the results are accumulated, selected here by `isDeps`).  `repo`
models `parse_package` on a bare name (`none` is the "Couldn't resolve
package" failure), `inst` models `is_installed`, and `recur` is the
recursive call to `resolve_deps` at depth+1.  The `visiting` set is threaded
explicitly (it is a `&mut HashSet` in Rust, modelled as a list without
duplicates). -/
def resolve_edges
    (repo : Str → Option Pkg) (inst : Str → Str → Bool)
    (recur : List Pkg → Nat → List Str →
      Except String (List Pkg × List Pkg × List Str))
    (isDeps : Bool) (depth : Nat) :
    List (Str × Str) → List Str → Except String (List Pkg × List Pkg × List Str)
  | [], vis => .ok ([], [], vis)
  | (name, verReq) :: rest, vis =>
      if vis.contains name then .error "Circular dependency detected"
      else if inst name verReq then resolve_edges repo inst recur isDeps depth rest vis
      else
        match repo name with
        | none => .error "Couldn't resolve package"
        | some p0 =>
            let p := { p0 with name := name, depth := depth }
            match recur [p] (depth + 1) (name :: vis) with
            | .error e => .error e
            | .ok (d, m, vis2) =>
                match resolve_edges repo inst recur isDeps depth rest (vis2.erase name) with
                | .error e => .error e
                | .ok (dr, mr, vis4) =>
                    if isDeps then .ok ((p :: d) ++ dr, m ++ mr, vis4)
                    else .ok (dr, (p :: (d ++ m)) ++ mr, vis4)

/-- The outer package loop of `resolve_deps` (src/actions.rs:305-365): for
each package, process its `deps` edges, then its `mkdeps` edges, and
concatenate the raw accumulators in source order. -/
def resolve_packs
    (repo : Str → Option Pkg) (inst : Str → Str → Bool)
    (recur : List Pkg → Nat → List Str →
      Except String (List Pkg × List Pkg × List Str))
    (depth : Nat) :
    List Pkg → List Str → Except String (List Pkg × List Pkg × List Str)
  | [], vis => .ok ([], [], vis)
  | t :: rest, vis =>
      match resolve_edges repo inst recur true depth t.deps vis with
      | .error e => .error e
      | .ok (d1, m1, vis1) =>
          match resolve_edges repo inst recur false depth t.mkdeps vis1 with
          | .error e => .error e
          | .ok (d2, m2, vis2) =>
              match resolve_packs repo inst recur depth rest vis2 with
              | .error e => .error e
              | .ok (dr, mr, vis3) =>
                  .ok (d1 ++ d2 ++ dr, m1 ++ m2 ++ mr, vis3)

/-- Model of `resolve_deps` (src/actions.rs:298-391).  The Rust function
recurses on the dependency graph and terminates thanks to the `visiting`
cycle check; the model makes termination syntactic with a fuel parameter
(running out of fuel is an `error`, and every theorem is conditional on an
`.ok` result).  After the raw traversal, duplicates are removed keeping the
highest depth, packages present in the mkdeps list are dropped from the deps
list, and both lists are sorted by descending depth. -/
def resolve_deps (repo : Str → Option Pkg) (inst : Str → Str → Bool) :
    Nat → List Pkg → Nat → List Str →
      Except String (List Pkg × List Pkg × List Str)
  | 0, _, _, _ => .error "Out of fuel"
  | fuel + 1, packs, depth, vis =>
      match resolve_packs repo inst (resolve_deps repo inst fuel) depth packs vis with
      | .error e => .error e
      | .ok (rd, rm, vis') =>
          let proc_deps := consolidate_deps rd
          let out_mkdeps := consolidate_deps rm
          let out_deps := proc_deps.filter
            (fun dep => !(out_mkdeps.any (fun mk => mk.name == dep.name)))
          .ok (sort_by_depth_desc out_deps, sort_by_depth_desc out_mkdeps, vis')

/-! ### Helper lemmas -/

/-- `str_contains` decides the sublist (substring) relation. -/
theorem str_contains_iff (s pat : Str) : str_contains s pat = true ↔ pat <:+: s := by
  induction s with
  | nil =>
      simp [str_contains, List.isEmpty_iff, List.infix_nil]
  | cons c cs ih =>
      simp [str_contains, Bool.or_eq_true, List.isPrefixOf_iff_prefix, ih,
        List.infix_cons_iff]

/-- `is_tracked` reports a file as tracked exactly when `file ++ "\n"` occurs
as a substring of some installed manifest's contents. -/
theorem is_tracked_isSome_iff (f : Str) (ms : List ManifestFile) :
    (is_tracked f ms).isSome = true ↔ ∃ m ∈ ms, (f ++ [nl]) <:+: m.content := by
  induction ms with
  | nil => simp [is_tracked]
  | cons m rest ih =>
      by_cases h : str_contains m.content (f ++ [nl]) = true
      · rw [str_contains_iff] at h
        simp [is_tracked, str_contains_iff, h]
      · rw [str_contains_iff] at h
        simp [is_tracked, str_contains_iff, h, ih]

/-- `is_tracked` returns `none` exactly when no manifest contains the line. -/
theorem is_tracked_eq_none_iff (f : Str) (ms : List ManifestFile) :
    is_tracked f ms = none ↔ ∀ m ∈ ms, ¬ (f ++ [nl]) <:+: m.content := by
  have h := is_tracked_isSome_iff f ms
  constructor
  · intro hn m hm hin
    rw [hn] at h
    simp at h
    exact h m hm hin
  · intro hall
    cases he : is_tracked f ms with
    | none => rfl
    | some x =>
        rw [he] at h
        simp at h
        obtain ⟨m, hm, hin⟩ := h
        exact absurd hin (hall m hm)

/-- The `rm` decision of `remove` for one manifest line. -/
theorem remove_step_rmTried_iff (arc : List ManifestFile) (isSym : Str → Bool)
    (f : Str) :
    (remove_step arc isSym f).rmTried = true ↔
      f ≠ moss_installed_dir ∧ (is_tracked f arc = none ∨ isSym f = false) := by
  unfold remove_step
  by_cases hroot : f = moss_installed_dir
  · simp [hroot]
  · cases ht : is_tracked f arc with
    | none => simp [hroot, ht]
    | some m => simp [hroot, ht]

/-- Membership in the `rm` loop of `remove`. -/
theorem mem_remove_rm_loop (arc : List ManifestFile) (isSym : Str → Bool)
    (l : List Str) (f : Str) :
    f ∈ remove_rm_loop arc isSym l ↔
      f ∈ l ∧ (remove_step arc isSym f).rmTried = true := by
  induction l with
  | nil => simp [remove_rm_loop]
  | cons g rest ih =>
      by_cases hg : (remove_step arc isSym g).rmTried = true
      · simp only [remove_rm_loop, if_pos hg, List.mem_cons, ih]
        constructor
        · rintro (rfl | ⟨hf, hs⟩)
          · exact ⟨Or.inl rfl, hg⟩
          · exact ⟨Or.inr hf, hs⟩
        · rintro ⟨rfl | hf, hs⟩
          · exact Or.inl rfl
          · exact Or.inr ⟨hf, hs⟩
      · simp only [remove_rm_loop, if_neg hg, List.mem_cons, ih]
        constructor
        · rintro ⟨hf, hs⟩
          exact ⟨Or.inr hf, hs⟩
        · rintro ⟨rfl | hf, hs⟩
          · exact absurd hs hg
          · exact ⟨hf, hs⟩

/-- A conflict prompt in the installer always names the manifest returned by
`is_tracked`. -/
theorem conflict_owner_eq_some (arc : List ManifestFile) (name line : Str)
    (isFile : Bool) (n : Str)
    (h : conflict_owner arc name line isFile = some n) :
    is_tracked line arc = some n := by
  unfold conflict_owner at h
  cases ht : is_tracked line arc with
  | none => simp [ht] at h
  | some x =>
      simp only [ht] at h
      split at h
      · exact h
      · exact absurd h (by simp)

/-- The worker of `remove_occs` ignores the exact fuel value once it is at
least the length of the input. -/
theorem remove_occs_go_fuel_irrel (pat : Str) :
    ∀ fuel1 : Nat, ∀ s : Str, s.length ≤ fuel1 →
      ∀ fuel2 : Nat, s.length ≤ fuel2 →
        remove_occs_go pat fuel1 s = remove_occs_go pat fuel2 s := by
  intro fuel1
  induction fuel1 with
  | zero =>
      intro s hs fuel2 _
      have : s = [] := List.length_eq_zero.mp (Nat.le_zero.mp hs)
      subst this
      cases fuel2 <;> rfl
  | succ fuel ih =>
      intro s hs fuel2 hs2
      cases s with
      | nil => cases fuel2 <;> rfl
      | cons c cs =>
          cases fuel2 with
          | zero => exact absurd hs2 (by simp)
          | succ fuel2 =>
              simp only [remove_occs_go]
              by_cases h : pat ≠ [] ∧ pat.isPrefixOf (c :: cs)
              · rw [if_pos h, if_pos h]
                have hlen : 1 ≤ pat.length := by
                  cases hp : pat with
                  | nil => exact absurd hp h.1
                  | cons a as => simp
                have hd : ((c :: cs).drop pat.length).length ≤ fuel := by
                  simp only [List.length_drop, List.length_cons]
                  simp only [List.length_cons] at hs
                  omega
                have hd2 : ((c :: cs).drop pat.length).length ≤ fuel2 := by
                  simp only [List.length_drop, List.length_cons]
                  simp only [List.length_cons] at hs2
                  omega
                exact ih _ hd _ hd2
              · rw [if_neg h, if_neg h]
                have hc : cs.length ≤ fuel := by
                  simp only [List.length_cons] at hs; omega
                have hc2 : cs.length ≤ fuel2 := by
                  simp only [List.length_cons] at hs2; omega
                rw [ih _ hc _ hc2]

/-- Unfolding equation of `remove_occs` on a cons cell. -/
theorem remove_occs_cons (pat : Str) (c : Char) (cs : Str) :
    remove_occs pat (c :: cs)
      = if pat ≠ [] ∧ pat.isPrefixOf (c :: cs) then
          remove_occs pat ((c :: cs).drop pat.length)
        else
          c :: remove_occs pat cs := by
  show remove_occs_go pat (cs.length + 1) (c :: cs) = _
  simp only [remove_occs_go]
  by_cases h : pat ≠ [] ∧ pat.isPrefixOf (c :: cs)
  · rw [if_pos h, if_pos h]
    have hlen : 1 ≤ pat.length := by
      cases hp : pat with
      | nil => exact absurd hp h.1
      | cons a as => simp
    exact remove_occs_go_fuel_irrel pat _ _ (by simp; omega) _ le_rfl
  · rw [if_neg h, if_neg h]
    rfl

/-- `remove_occs` never introduces characters. -/
theorem mem_remove_occs_go (pat : Str) (c : Char) :
    ∀ fuel : Nat, ∀ s : Str, c ∈ remove_occs_go pat fuel s → c ∈ s := by
  intro fuel
  induction fuel with
  | zero =>
      intro s h
      cases s with
      | nil => exact absurd h (by simp [remove_occs_go])
      | cons a as => exact h
  | succ fuel ih =>
      intro s h
      cases s with
      | nil => exact absurd h (by simp [remove_occs_go])
      | cons a as =>
          simp only [remove_occs_go] at h
          by_cases hc : pat ≠ [] ∧ pat.isPrefixOf (a :: as)
          · rw [if_pos hc] at h
            exact List.mem_of_mem_drop (ih _ h)
          · rw [if_neg hc] at h
            rcases List.mem_cons.mp h with rfl | h
            · exact List.mem_cons_self _ _
            · exact List.mem_cons_of_mem _ (ih _ h)

/-- `remove_occs` never introduces characters (wrapper). -/
theorem mem_remove_occs (pat s : Str) (c : Char) (h : c ∈ remove_occs pat s) :
    c ∈ s :=
  mem_remove_occs_go pat c s.length s h

/-- Removing a newline-free pattern commutes with appending the trailing
newline of a manifest line. -/
theorem remove_occs_append_nl (pat : Str) (hpat : nl ∉ pat) :
    ∀ s : Str, nl ∉ s →
      remove_occs pat (s ++ [nl]) = remove_occs pat s ++ [nl] := by
  suffices H : ∀ n : Nat, ∀ s : Str, s.length ≤ n → nl ∉ s →
      remove_occs pat (s ++ [nl]) = remove_occs pat s ++ [nl] by
    exact fun s hs => H s.length s le_rfl hs
  intro n
  induction n with
  | zero =>
      intro s hl hs
      have : s = [] := List.length_eq_zero.mp (Nat.le_zero.mp hl)
      subst this
      simp only [List.nil_append, remove_occs_cons]
      have hnp : ¬(pat ≠ [] ∧ pat.isPrefixOf [nl]) := by
        rintro ⟨h1, h2⟩
        have hp : pat <+: [nl] := List.isPrefixOf_iff_prefix.mp h2
        have : pat = [nl] := by
          cases hq : pat with
          | nil => exact absurd hq h1
          | cons a as =>
              rcases hp with ⟨t, ht⟩
              rw [hq] at ht
              cases as with
              | nil =>
                  cases t with
                  | nil => simpa using ht
                  | cons b bs => simp at ht
              | cons b bs => simp at ht
        rw [this] at hpat
        exact hpat (List.mem_singleton_self _)
      rw [if_neg hnp]
      rfl
  | succ n ih =>
      intro s hl hs
      cases s with
      | nil =>
          exact ih [] (by simp) hs
      | cons c cs =>
          have hcnl : c ≠ nl := fun h => hs (h ▸ List.mem_cons_self _ _)
          have hcsnl : nl ∉ cs := fun h => hs (List.mem_cons_of_mem _ h)
          have hcons : (c :: cs) ++ [nl] = c :: (cs ++ [nl]) := rfl
          rw [hcons, remove_occs_cons, remove_occs_cons]
          by_cases h2 : pat ≠ [] ∧ pat.isPrefixOf (c :: cs)
          · have hpre : pat <+: (c :: cs) := List.isPrefixOf_iff_prefix.mp h2.2
            have h1 : pat ≠ [] ∧ pat.isPrefixOf (c :: (cs ++ [nl])) := by
              refine ⟨h2.1, List.isPrefixOf_iff_prefix.mpr ?_⟩
              have : pat <+: ((c :: cs) ++ [nl]) :=
                hpre.trans (List.prefix_append _ _)
              simpa using this
            rw [if_pos h1, if_pos h2]
            have hlenle : pat.length ≤ (c :: cs).length := hpre.length_le
            have hdrop : (c :: (cs ++ [nl])).drop pat.length
                = ((c :: cs).drop pat.length) ++ [nl] := by
              have : (c :: (cs ++ [nl])) = (c :: cs) ++ [nl] := rfl
              rw [this, List.drop_append_of_le_length hlenle]
            rw [hdrop]
            have hlen1 : 1 ≤ pat.length := by
              cases hq : pat with
              | nil => exact absurd hq h2.1
              | cons a as => simp
            have hdl : ((c :: cs).drop pat.length).length ≤ n := by
              simp only [List.length_drop, List.length_cons]
              simp only [List.length_cons] at hl
              omega
            have hdnl : nl ∉ (c :: cs).drop pat.length := by
              intro hmem
              exact hs (List.mem_of_mem_drop hmem)
            exact ih _ hdl hdnl
          · have h1 : ¬(pat ≠ [] ∧ pat.isPrefixOf (c :: (cs ++ [nl]))) := by
              rintro ⟨hne', hpre'⟩
              refine h2 ⟨hne', List.isPrefixOf_iff_prefix.mpr ?_⟩
              have hp : pat <+: ((c :: cs) ++ [nl]) := by
                simpa using List.isPrefixOf_iff_prefix.mp hpre'
              by_cases hlen : pat.length ≤ (c :: cs).length
              · have htake : pat = ((c :: cs) ++ [nl]).take pat.length :=
                  List.prefix_iff_eq_take.mp hp
                rw [List.take_append_of_le_length hlen] at htake
                rw [htake]
                exact List.take_prefix _ _
              · exfalso
                have hlen2 : pat.length ≤ (c :: cs).length + 1 := by
                  have := hp.length_le
                  simpa using this
                have heq : pat.length = ((c :: cs) ++ [nl]).length := by
                  simp only [List.length_append, List.length_singleton]
                  omega
                have : pat = (c :: cs) ++ [nl] := List.IsPrefix.eq_of_length hp heq
                rw [this] at hpat
                exact hpat (by simp)
            rw [if_neg h1, if_neg h2]
            have hcl : cs.length ≤ n := by
              simp only [List.length_cons] at hl; omega
            rw [ih cs hcl hcsnl]
            rfl

/-- `split_lines` splits off a complete newline-free line. -/
theorem split_lines_append (l rest : Str) (hl : nl ∉ l) :
    split_lines (l ++ nl :: rest) = l :: split_lines rest := by
  induction l with
  | nil => simp [split_lines]
  | cons c cs ih =>
      have hcnl : c ≠ nl := fun h => hl (h ▸ List.mem_cons_self _ _)
      have hcsnl : nl ∉ cs := fun h => hl (List.mem_cons_of_mem _ h)
      simp only [List.cons_append, split_lines, if_neg hcnl, List.append_eq,
        ih hcsnl]

/-- The fold of `consolidate_deps` never changes the package name. -/
theorem best_copy_name (input : List Pkg) (i : Pkg) :
    (best_copy input i).name = i.name := by
  have H : ∀ (l : List Pkg) (acc : Pkg),
      (l.foldl (fun pack j =>
        if j.name = pack.name ∧ pack.depth < j.depth then j else pack) acc).name
        = acc.name := by
    intro l
    induction l with
    | nil => intro acc; rfl
    | cons j rest ih =>
        intro acc
        simp only [List.foldl_cons]
        rw [ih]
        by_cases h : j.name = acc.name ∧ acc.depth < j.depth
        · rw [if_pos h]; exact h.1
        · rw [if_neg h]
  exact H input i

/-- The fold of `consolidate_deps` returns the start value or a list
element. -/
theorem best_copy_eq_or_mem (input : List Pkg) (i : Pkg) :
    best_copy input i = i ∨ best_copy input i ∈ input := by
  have H : ∀ (l : List Pkg) (acc : Pkg),
      (l.foldl (fun pack j =>
        if j.name = pack.name ∧ pack.depth < j.depth then j else pack) acc)
        = acc
      ∨ (l.foldl (fun pack j =>
        if j.name = pack.name ∧ pack.depth < j.depth then j else pack) acc)
        ∈ l := by
    intro l
    induction l with
    | nil => intro acc; exact Or.inl rfl
    | cons j rest ih =>
        intro acc
        simp only [List.foldl_cons]
        rcases ih (if j.name = acc.name ∧ acc.depth < j.depth then j else acc)
          with h | h
        · rw [h]
          by_cases hc : j.name = acc.name ∧ acc.depth < j.depth
          · rw [if_pos hc]; exact Or.inr (List.mem_cons_self _ _)
          · rw [if_neg hc]; exact Or.inl rfl
        · exact Or.inr (List.mem_cons_of_mem _ h)
  exact H input i

/-- The fold of `consolidate_deps` dominates the depth of the start value
and of every same-name list element. -/
theorem best_copy_depth_ge (input : List Pkg) (i : Pkg) :
    i.depth ≤ (best_copy input i).depth
    ∧ ∀ j ∈ input, j.name = i.name → j.depth ≤ (best_copy input i).depth := by
  have H : ∀ (l : List Pkg) (acc : Pkg), acc.name = i.name →
      acc.depth ≤ (l.foldl (fun pack j =>
        if j.name = pack.name ∧ pack.depth < j.depth then j else pack) acc).depth
      ∧ ∀ j ∈ l, j.name = i.name →
          j.depth ≤ (l.foldl (fun pack j =>
            if j.name = pack.name ∧ pack.depth < j.depth then j else pack) acc).depth := by
    intro l
    induction l with
    | nil =>
        intro acc _
        exact ⟨le_rfl, by simp⟩
    | cons j rest ih =>
        intro acc hacc
        have hacc' : (if j.name = acc.name ∧ acc.depth < j.depth then j else acc).name
            = i.name := by
          by_cases hc : j.name = acc.name ∧ acc.depth < j.depth
          · rw [if_pos hc]; exact hc.1.trans hacc
          · rw [if_neg hc]; exact hacc
        obtain ⟨h1, h2⟩ := ih _ hacc'
        have hstep : acc.depth
            ≤ (if j.name = acc.name ∧ acc.depth < j.depth then j else acc).depth := by
          by_cases hc : j.name = acc.name ∧ acc.depth < j.depth
          · rw [if_pos hc]; exact Nat.le_of_lt hc.2
          · rw [if_neg hc]
        refine ⟨le_trans hstep (by simpa using h1), ?_⟩
        intro k hk hkname
        rcases List.mem_cons.mp hk with rfl | hk
        · by_cases hc : k.name = acc.name ∧ acc.depth < k.depth
          · have : (if k.name = acc.name ∧ acc.depth < k.depth then k else acc) = k :=
              if_pos hc
            simpa [List.foldl_cons, this] using h1
          · have hle : k.depth ≤ acc.depth := by
              rcases Nat.lt_or_ge acc.depth k.depth with hlt | hge
              · exact absurd ⟨hkname.trans hacc.symm, hlt⟩ hc
              · exact hge
            exact le_trans hle (le_trans hstep (by simpa using h1))
        · simpa using h2 k hk hkname
  have := H input i rfl
  exact ⟨this.1, this.2⟩

/-- Membership in the output of the `consolidate_deps` loop. -/
theorem mem_consolidate_go (input : List Pkg) :
    ∀ (l out : List Pkg) (p : Pkg), p ∈ consolidate_go input l out →
      p ∈ out ∨ ∃ i ∈ l, p = best_copy input i := by
  intro l
  induction l with
  | nil =>
      intro out p hp
      exact Or.inl hp
  | cons i rest ih =>
      intro out p hp
      simp only [consolidate_go] at hp
      by_cases hc : out.any (fun j => j.name == i.name) = true
      · rw [if_pos hc] at hp
        rcases ih _ _ hp with h | ⟨j, hj, hpj⟩
        · exact Or.inl h
        · exact Or.inr ⟨j, List.mem_cons_of_mem _ hj, hpj⟩
      · rw [if_neg hc] at hp
        rcases ih _ _ hp with h | ⟨j, hj, hpj⟩
        · rcases List.mem_append.mp h with h | h
          · exact Or.inl h
          · exact Or.inr ⟨i, List.mem_cons_self _ _, List.mem_singleton.mp h⟩
        · exact Or.inr ⟨j, List.mem_cons_of_mem _ hj, hpj⟩

/-- The `consolidate_deps` loop preserves name-uniqueness of the
accumulator. -/
theorem consolidate_go_nodup (input : List Pkg) :
    ∀ (l out : List Pkg), (out.map Pkg.name).Nodup →
      ((consolidate_go input l out).map Pkg.name).Nodup := by
  intro l
  induction l with
  | nil => intro out h; exact h
  | cons i rest ih =>
      intro out h
      simp only [consolidate_go]
      by_cases hc : out.any (fun j => j.name == i.name) = true
      · rw [if_pos hc]; exact ih _ h
      · rw [if_neg hc]
        refine ih _ ?_
        rw [List.map_append, List.map_singleton]
        rw [List.nodup_append]
        refine ⟨h, List.nodup_singleton _, ?_⟩
        intro a ha hb
        rw [List.mem_singleton] at hb
        subst hb
        rw [best_copy_name] at ha
        rcases List.mem_map.mp ha with ⟨j, hj, hjn⟩
        have : ∀ j ∈ out, ¬(j.name == i.name) = true := by
          simpa [List.any_eq_true] using hc
        exact this j hj (by simp [hjn])

/-- Every entry of `consolidate_deps` is an input entry carrying the
greatest depth among the same-name input entries. -/
theorem mem_consolidate_deps (input : List Pkg) (p : Pkg)
    (hp : p ∈ consolidate_deps input) :
    p ∈ input ∧ ∀ q ∈ input, q.name = p.name → q.depth ≤ p.depth := by
  rcases mem_consolidate_go input input [] p hp with h | ⟨i, hi, rfl⟩
  · exact absurd h (List.not_mem_nil _)
  · constructor
    · rcases best_copy_eq_or_mem input i with h | h
      · rw [h]; exact hi
      · exact h
    · intro q hq hname
      refine (best_copy_depth_ge input i).2 q hq ?_
      rw [← best_copy_name input i]
      exact hname

/-- The names in `consolidate_deps`'s output are pairwise distinct. -/
theorem consolidate_deps_nodup (input : List Pkg) :
    ((consolidate_deps input).map Pkg.name).Nodup :=
  consolidate_go_nodup input input [] (by simp)

instance pkg_desc_total : IsTotal Pkg (fun a b => b.depth ≤ a.depth) :=
  ⟨fun a b => Nat.le_total b.depth a.depth⟩

instance pkg_desc_trans : IsTrans Pkg (fun a b => b.depth ≤ a.depth) :=
  ⟨fun _ _ _ hab hbc => le_trans hbc hab⟩

/-- The model sort is a permutation of its input. -/
theorem sort_by_depth_desc_perm (l : List Pkg) :
    (sort_by_depth_desc l).Perm l :=
  List.perm_insertionSort _ l

/-- The model sort produces a list whose adjacent depths are
non-increasing. -/
theorem sort_by_depth_desc_chain (l : List Pkg) :
    List.Chain' (fun a b => b.depth ≤ a.depth) (sort_by_depth_desc l) :=
  (List.sorted_insertionSort _ l).chain'

/-- Every package recorded by the edge loop of `resolve_deps` has at least
the depth at which the loop runs (entries are recorded at the current depth
and recursive results at depth+1). -/
theorem resolve_edges_depth_ge (repo : Str → Option Pkg)
    (inst : Str → Str → Bool)
    (recur : List Pkg → Nat → List Str →
      Except String (List Pkg × List Pkg × List Str))
    (isDeps : Bool) (depth : Nat)
    (hrec : ∀ ps dd vv d m vv2, recur ps dd vv = .ok (d, m, vv2) →
      ((∀ p ∈ d, dd ≤ p.depth) ∧ (∀ p ∈ m, dd ≤ p.depth))) :
    ∀ (edges : List (Str × Str)) (vis : List Str) (d m : List Pkg)
      (vis2 : List Str),
      resolve_edges repo inst recur isDeps depth edges vis = .ok (d, m, vis2) →
      (∀ p ∈ d, depth ≤ p.depth) ∧ (∀ p ∈ m, depth ≤ p.depth) := by
  intro edges
  induction edges with
  | nil =>
      intro vis d m vis2 h
      simp only [resolve_edges, Except.ok.injEq, Prod.mk.injEq] at h
      obtain ⟨h1, h2, _⟩ := h
      subst h1; subst h2
      exact ⟨by simp, by simp⟩
  | cons e rest ih =>
      obtain ⟨name, verReq⟩ := e
      intro vis d m vis2 h
      simp only [resolve_edges] at h
      by_cases hvis : vis.contains name = true
      · rw [if_pos hvis] at h
        simp at h
      · rw [if_neg hvis] at h
        by_cases hins : inst name verReq = true
        · rw [if_pos hins] at h
          exact ih _ _ _ _ h
        · rw [if_neg hins] at h
          cases hrepo : repo name with
          | none => rw [hrepo] at h; simp at h
          | some p0 =>
              rw [hrepo] at h
              simp only [] at h
              cases hr1 : recur [{ p0 with name := name, depth := depth }]
                  (depth + 1) (name :: vis) with
              | error e1 => rw [hr1] at h; simp at h
              | ok res1 =>
                  obtain ⟨d1, m1, vis'⟩ := res1
                  rw [hr1] at h
                  simp only [] at h
                  cases hr2 : resolve_edges repo inst recur isDeps depth rest
                      (vis'.erase name) with
                  | error e2 => rw [hr2] at h; simp at h
                  | ok res2 =>
                      obtain ⟨dr, mr, vis4⟩ := res2
                      rw [hr2] at h
                      simp only [] at h
                      obtain ⟨hd1, hm1⟩ := hrec _ _ _ _ _ _ hr1
                      obtain ⟨hdr, hmr⟩ := ih _ _ _ _ hr2
                      cases hisd : isDeps with
                      | true =>
                          rw [hisd] at h
                          simp only [if_true, Except.ok.injEq,
                            Prod.mk.injEq] at h
                          obtain ⟨h1, h2, _⟩ := h
                          subst h1; subst h2
                          constructor
                          · intro p hp
                            rcases List.mem_append.mp hp with hp | hp
                            · rcases List.mem_cons.mp hp with rfl | hp
                              · exact le_rfl
                              · exact Nat.le_of_succ_le (hd1 p hp)
                            · exact hdr p hp
                          · intro p hp
                            rcases List.mem_append.mp hp with hp | hp
                            · exact Nat.le_of_succ_le (hm1 p hp)
                            · exact hmr p hp
                      | false =>
                          rw [hisd] at h
                          simp only [Bool.false_eq_true, if_false,
                            Except.ok.injEq, Prod.mk.injEq] at h
                          obtain ⟨h1, h2, _⟩ := h
                          subst h1; subst h2
                          constructor
                          · intro p hp
                            exact hdr p hp
                          · intro p hp
                            rcases List.mem_append.mp hp with hp | hp
                            · rcases List.mem_cons.mp hp with rfl | hp
                              · exact le_rfl
                              · rcases List.mem_append.mp hp with hp | hp
                                · exact Nat.le_of_succ_le (hd1 p hp)
                                · exact Nat.le_of_succ_le (hm1 p hp)
                            · exact hmr p hp

/-- Every package recorded by the package loop of `resolve_deps` has at
least the depth at which the loop runs. -/
theorem resolve_packs_depth_ge (repo : Str → Option Pkg)
    (inst : Str → Str → Bool)
    (recur : List Pkg → Nat → List Str →
      Except String (List Pkg × List Pkg × List Str))
    (depth : Nat)
    (hrec : ∀ ps dd vv d m vv2, recur ps dd vv = .ok (d, m, vv2) →
      ((∀ p ∈ d, dd ≤ p.depth) ∧ (∀ p ∈ m, dd ≤ p.depth))) :
    ∀ (packs : List Pkg) (vis : List Str) (d m : List Pkg) (vis2 : List Str),
      resolve_packs repo inst recur depth packs vis = .ok (d, m, vis2) →
      (∀ p ∈ d, depth ≤ p.depth) ∧ (∀ p ∈ m, depth ≤ p.depth) := by
  intro packs
  induction packs with
  | nil =>
      intro vis d m vis2 h
      simp only [resolve_packs, Except.ok.injEq, Prod.mk.injEq] at h
      obtain ⟨h1, h2, _⟩ := h
      subst h1; subst h2
      exact ⟨by simp, by simp⟩
  | cons t rest ih =>
      intro vis d m vis2 h
      simp only [resolve_packs] at h
      cases he1 : resolve_edges repo inst recur true depth t.deps vis with
      | error e1 => rw [he1] at h; simp at h
      | ok res1 =>
          obtain ⟨d1, m1, vis1⟩ := res1
          rw [he1] at h
          simp only [] at h
          cases he2 : resolve_edges repo inst recur false depth t.mkdeps vis1 with
          | error e2 => rw [he2] at h; simp at h
          | ok res2 =>
              obtain ⟨d2, m2, vis2'⟩ := res2
              rw [he2] at h
              simp only [] at h
              cases hp : resolve_packs repo inst recur depth rest vis2' with
              | error e3 => rw [hp] at h; simp at h
              | ok res3 =>
                  obtain ⟨dr, mr, vis3⟩ := res3
                  rw [hp] at h
                  simp only [Except.ok.injEq, Prod.mk.injEq] at h
                  obtain ⟨h1, h2, _⟩ := h
                  subst h1; subst h2
                  obtain ⟨hda, hma⟩ :=
                    resolve_edges_depth_ge repo inst recur true depth hrec
                      t.deps vis d1 m1 vis1 he1
                  obtain ⟨hdb, hmb⟩ :=
                    resolve_edges_depth_ge repo inst recur false depth hrec
                      t.mkdeps vis1 d2 m2 vis2' he2
                  obtain ⟨hdc, hmc⟩ := ih _ _ _ _ hp
                  constructor
                  · intro p hp'
                    rcases List.mem_append.mp hp' with hp' | hp'
                    · rcases List.mem_append.mp hp' with hp' | hp'
                      · exact hda p hp'
                      · exact hdb p hp'
                    · exact hdc p hp'
                  · intro p hp'
                    rcases List.mem_append.mp hp' with hp' | hp'
                    · rcases List.mem_append.mp hp' with hp' | hp'
                      · exact hma p hp'
                      · exact hmb p hp'
                    · exact hmc p hp'

/-- Every package returned by `resolve_deps` has at least the starting
depth. -/
theorem resolve_deps_depth_ge (repo : Str → Option Pkg)
    (inst : Str → Str → Bool) :
    ∀ (fuel : Nat) (packs : List Pkg) (depth : Nat) (vis : List Str)
      (deps mkdeps : List Pkg) (vis2 : List Str),
      resolve_deps repo inst fuel packs depth vis = .ok (deps, mkdeps, vis2) →
      (∀ p ∈ deps, depth ≤ p.depth) ∧ (∀ p ∈ mkdeps, depth ≤ p.depth) := by
  intro fuel
  induction fuel with
  | zero =>
      intro packs depth vis deps mkdeps vis2 h
      simp [resolve_deps] at h
  | succ fuel ih =>
      intro packs depth vis deps mkdeps vis2 h
      simp only [resolve_deps] at h
      cases hp : resolve_packs repo inst (resolve_deps repo inst fuel) depth
          packs vis with
      | error e => rw [hp] at h; simp at h
      | ok res =>
          obtain ⟨rd, rm, vis'⟩ := res
          rw [hp] at h
          simp only [Except.ok.injEq, Prod.mk.injEq] at h
          obtain ⟨h1, h2, _⟩ := h
          subst h1; subst h2
          have hrec : ∀ ps dd vv d m vv2,
              resolve_deps repo inst fuel ps dd vv = .ok (d, m, vv2) →
              ((∀ p ∈ d, dd ≤ p.depth) ∧ (∀ p ∈ m, dd ≤ p.depth)) :=
            fun ps dd vv d m vv2 hh => ih ps dd vv d m vv2 hh
          obtain ⟨hrd, hrm⟩ :=
            resolve_packs_depth_ge repo inst (resolve_deps repo inst fuel)
              depth hrec packs vis rd rm vis' hp
          constructor
          · intro p hmem
            have hmem' : p ∈ (consolidate_deps rd).filter
                (fun dep => !((consolidate_deps rm).any
                  (fun mk => mk.name == dep.name))) :=
              (sort_by_depth_desc_perm _).mem_iff.mp hmem
            have hmem'' : p ∈ consolidate_deps rd :=
              List.mem_of_mem_filter hmem'
            exact hrd p (mem_consolidate_deps rd p hmem'').1
          · intro p hmem
            have hmem' : p ∈ consolidate_deps rm :=
              (sort_by_depth_desc_perm _).mem_iff.mp hmem
            exact hrm p (mem_consolidate_deps rm p hmem').1

/-- Shape of a successful `resolve_deps` run: the returned lists are the
sorted, filtered consolidations of some raw traversal lists. -/
theorem resolve_deps_ok_shape (repo : Str → Option Pkg)
    (inst : Str → Str → Bool) (fuel : Nat) (packs : List Pkg) (depth : Nat)
    (vis : List Str) (deps mkdeps : List Pkg) (vis2 : List Str)
    (h : resolve_deps repo inst fuel packs depth vis = .ok (deps, mkdeps, vis2)) :
    ∃ rd rm : List Pkg,
      deps = sort_by_depth_desc ((consolidate_deps rd).filter
        (fun dep => !((consolidate_deps rm).any (fun mk => mk.name == dep.name))))
      ∧ mkdeps = sort_by_depth_desc (consolidate_deps rm) := by
  cases fuel with
  | zero => simp [resolve_deps] at h
  | succ fuel =>
      simp only [resolve_deps] at h
      cases hp : resolve_packs repo inst (resolve_deps repo inst fuel) depth
          packs vis with
      | error e => rw [hp] at h; simp at h
      | ok res =>
          obtain ⟨rd, rm, vis'⟩ := res
          rw [hp] at h
          simp only [Except.ok.injEq, Prod.mk.injEq] at h
          obtain ⟨h1, h2, _⟩ := h
          exact ⟨rd, rm, h1.symm, h2.symm⟩

/-! ### Claim theorems -/

/-- C1 (counterexample): a regular file that is tracked by another installed
package's manifest (`other@1.0`, not the package `pkg` being removed) is
nevertheless deleted by `remove` — `rm` is invoked on it — contradicting the
claim that such paths are left in place. -/
theorem c1_counterexample :
    is_tracked (str "/usr/bin/foo") [⟨str "other@1.0", str "/usr/bin/foo\n"⟩]
        = some (str "other@1.0")
    ∧ split_at_sign_head (str "other@1.0") ≠ str "pkg"
    ∧ str "/usr/bin/foo"
        ∈ remove_rms [⟨str "other@1.0", str "/usr/bin/foo\n"⟩]
            (fun _ => false) [str "/usr/bin/foo"] := by
  refine ⟨by decide, by decide, by decide⟩

/-- C1 (amended): during `remove`, `rm` is invoked on exactly the manifest
lines other than the installed root `/var/cache/moss/installed` that are
either untracked (by every manifest of `/var/cache/arc/installed`, the
package's own included) or are not symlinks; in particular regular files
tracked by another installed manifest are deleted, and only tracked symlinks
are left in place. -/
theorem c1_remove_rm_characterization (arc : List ManifestFile)
    (isSym : Str → Bool) (lines : List Str) (f : Str) :
    f ∈ remove_rms arc isSym lines ↔
      f ∈ lines ∧ f ≠ moss_installed_dir ∧
        (is_tracked f arc = none ∨ isSym f = false) := by
  unfold remove_rms
  rw [mem_remove_rm_loop, List.mem_reverse, remove_step_rmTried_iff]

/-- C8: the installed-manifest directory is split between two locations —
`is_installed`, `is_tracked` and the builder write/read
`/var/cache/arc/installed` while `remove` (and `list`/`upgrade`/startup)
glob `/var/cache/moss/installed` — so for a package whose manifest exists
only under the arc path, `remove`'s `is_installed` precondition succeeds,
its manifest glob over the moss path yields no entry, and the subsequent
`.unwrap()` panics instead of returning an error. -/
theorem c8_split_installed_dirs_panics (fs : SysFS) (pack : Str)
    (hinst : is_installed fs pack (str "*") = true)
    (hmoss : ∀ m ∈ fs.mossInstalled, glob_match (pack ++ str "@*") m.name = false) :
    remove_lookup fs pack = .panicked
    ∧ arc_installed_dir ≠ moss_installed_dir
    ∧ build_manifest_dir [] = arc_installed_dir := by
  refine ⟨?_, by decide, by decide⟩
  have hfil : fs.mossInstalled.filter
      (fun m => glob_match (pack ++ str "@*") m.name) = [] := by
    rw [List.filter_eq_nil_iff]
    intro m hm
    simp [hmoss m hm]
  unfold remove_lookup
  simp [hinst, hfil]

/-- C8 witness: a package `foo` whose manifest `foo@1.0` exists only in the
arc directory makes `remove` panic. -/
theorem c8_split_installed_dirs_panics_witness :
    remove_lookup ⟨[⟨str "foo@1.0", []⟩], []⟩ (str "foo") = .panicked
    ∧ arc_installed_dir ≠ moss_installed_dir
    ∧ build_manifest_dir [] = arc_installed_dir :=
  c8_split_installed_dirs_panics ⟨[⟨str "foo@1.0", []⟩], []⟩ (str "foo")
    (by decide) (by decide)

/-- C9: `is_tracked` matches `file ++ "\n"` as a plain substring of manifest
contents, so a path that is a (proper) suffix of a tracked path is itself
reported as tracked; the same `is_tracked` result drives the remover's
keep-or-delete decision and the installer's conflict pass. -/
theorem c9_is_tracked_substring_suffix (ms : List ManifestFile)
    (m : ManifestFile) (p t : Str) (hm : m ∈ ms) (hsuf : p <:+ t)
    (hline : (t ++ [nl]) <:+: m.content) :
    (is_tracked p ms).isSome = true
    ∧ (∀ arc sym f, (remove_step arc sym f).rmTried = true ↔
        f ≠ moss_installed_dir ∧ (is_tracked f arc = none ∨ sym f = false))
    ∧ (∀ arc name line isFile n,
        conflict_owner arc name line isFile = some n →
          is_tracked line arc = some n) := by
  refine ⟨?_, fun arc sym f => remove_step_rmTried_iff arc sym f,
    fun arc name line isFile n h => conflict_owner_eq_some arc name line isFile n h⟩
  rw [is_tracked_isSome_iff]
  refine ⟨m, hm, ?_⟩
  have hsuf' : p ++ [nl] <:+ t ++ [nl] := by
    obtain ⟨u, hu⟩ := hsuf
    exact ⟨u, by rw [← hu, List.append_assoc]⟩
  exact hsuf'.isInfix.trans hline

/-- C9 witness: with `/usr/bin/sh` listed in the manifest of
`coreutils@9.0`, the path `/bin/sh` is reported as tracked. -/
theorem c9_is_tracked_substring_suffix_witness :
    (is_tracked (str "/bin/sh")
        [⟨str "coreutils@9.0", str "/usr/bin/sh\n"⟩]).isSome = true
    ∧ (∀ arc sym f, (remove_step arc sym f).rmTried = true ↔
        f ≠ moss_installed_dir ∧ (is_tracked f arc = none ∨ sym f = false))
    ∧ (∀ arc name line isFile n,
        conflict_owner arc name line isFile = some n →
          is_tracked line arc = some n) :=
  c9_is_tracked_substring_suffix
    [⟨str "coreutils@9.0", str "/usr/bin/sh\n"⟩]
    ⟨str "coreutils@9.0", str "/usr/bin/sh\n"⟩
    (str "/bin/sh") (str "/usr/bin/sh") (by decide) (by decide) (by decide)

/-- C10: the slice `&url[3..4]` in `download_one` requires the URL to be at
least 4 bytes long — the dispatch panics exactly on URLs shorter than 4
characters (chars model bytes; exact for ASCII URLs), instead of returning
an error result. -/
theorem c10_short_url_panics (dlDir : Str) (cached : Str → Bool) (force : Bool)
    (url : Str) :
    download_one_step dlDir cached force url = .panic ↔ url.length < 4 := by
  by_cases h : url.length < 4
  · simp [download_one_step, h]
  · simp only [download_one_step, if_neg h]
    constructor
    · intro hc
      exfalso
      revert hc
      repeat' split
      all_goals simp
    · intro hc
      exact absurd hc h

/-- C2: a source URL beginning with `git+` does not hit the
"Git sources are not yet supported" bail — `download_one` strips the four
characters `git+` first (the `&url[3..4] == "+"` arm), so the remaining
`https://…` URL is downloaded over HTTP instead. -/
theorem c2_git_source_is_downloaded :
    (str "git+").isPrefixOf (str "git+https://example.com/src.tar.gz") = true
    ∧ download_one_step (str "/c/dl") (fun _ => false) true
        (str "git+https://example.com/src.tar.gz")
      = .http (str "https://example.com/src.tar.gz") (str "/c/dl/src.tar.gz")
    ∧ (∀ u, download_one_step (str "/c/dl") (fun _ => false) true
        (str "git+https://example.com/src.tar.gz") ≠ .gitUnsupported u) := by
  refine ⟨by decide, by decide, ?_⟩
  intro u hu
  rw [show download_one_step (str "/c/dl") (fun _ => false) true
        (str "git+https://example.com/src.tar.gz")
      = .http (str "https://example.com/src.tar.gz") (str "/c/dl/src.tar.gz")
    from by decide] at hu
  exact DlStep.noConfusion hu

/-- C3: the `build` command verifies checksums only for the explicit
packages and the runtime dependencies; a make-dependency whose source hash
differs from its declared checksum (so `verify_checksums` fails on it) is
still built — its build scratch is created — and installed, with no
ChecksumMismatch abort. -/
theorem c3_mkdep_checksums_not_verified :
    verify_checksums (fun _ => str "aaaa") [str "/c/dl/m.tar.gz"] [str "bbbb"]
      = .error "Checksum mismatch"
    ∧ build_cmd (fun _ => str "aaaa")
        [⟨str "p", str "1", 0, [], [], [], []⟩] []
        [⟨str "m", str "1", 1, [], [], [str "/c/dl/m.tar.gz"], [str "bbbb"]⟩]
      = .ok [.verified (str "p"),
             .scratchCreated (str "m"), .built (str "m"), .installed (str "m"),
             .scratchCreated (str "p"), .built (str "p"), .installed (str "p")]
    ∧ BuildStep.scratchCreated (str "m")
        ∈ [BuildStep.verified (str "p"),
           .scratchCreated (str "m"), .built (str "m"), .installed (str "m"),
           .scratchCreated (str "p"), .built (str "p"), .installed (str "p")] := by
  refine ⟨rfl, rfl, by decide⟩

/-- C5 (counterexample): with `su_cmd = "pkexec"` configured (and even
`/bin/sudo` present) and a non-root user, `install_all` fails with the
"Couldn't find a command to elevate privileges" error instead of using the
configured elevator. -/
theorem c5_counterexample :
    install_placements ⟨some (str "pkexec"), true, true, true, false⟩ [str "a"]
      = .error "Couldn't find a command to elevate privileges"
    ∧ su_command ⟨some (str "pkexec"), true, true, true, false⟩ = str "pkexec" :=
  ⟨rfl, rfl⟩

/-- C5 (amended): a configured `su_cmd` overrides auto-detection in the
selection of the elevation command, but only the three values `sudo`,
`doas`, `ssu` are usable: as root the placement commands run unelevated;
when not root they are elevated with the selected command if it is one of
the three, and otherwise the first package's installation fails with the
NoElevation error (so a configured command outside the set fails even when
present, and an empty package list does not fail). -/
theorem c5_elevation_behavior (e : ElevEnv) (packs : List Str) :
    (∀ x, su_command { e with su_cmd := some x } = x)
    ∧ (e.is_root = true →
        install_placements e packs = .ok (packs.map Placement.asRoot))
    ∧ (e.is_root = false →
        (su_command e = str "sudo" ∨ su_command e = str "doas"
          ∨ su_command e = str "ssu") →
        install_placements e packs
          = .ok (packs.map (Placement.elevated (su_command e))))
    ∧ (e.is_root = false →
        ¬(su_command e = str "sudo" ∨ su_command e = str "doas"
          ∨ su_command e = str "ssu") →
        packs ≠ [] →
        install_placements e packs
          = .error "Couldn't find a command to elevate privileges") := by
  refine ⟨fun x => rfl, ?_, ?_, ?_⟩
  · intro hr
    induction packs with
    | nil => simp [install_placements]
    | cons p rest ih => simp [install_placements, hr, ih, bind, Except.bind]
  · intro hr hcmd
    induction packs with
    | nil => simp [install_placements]
    | cons p rest ih => simp [install_placements, hr, hcmd, ih, bind, Except.bind]
  · intro hr hcmd hne
    cases packs with
    | nil => exact absurd rfl hne
    | cons p rest => simp [install_placements, hr, hcmd, bind, Except.bind]

/-- C5 witness: a non-root environment with only `/bin/sudo` present and no
configured `su_cmd` selects `sudo` and installs with it. -/
theorem c5_elevation_behavior_witness :
    (∀ x, su_command { (⟨none, true, false, false, false⟩ : ElevEnv) with
        su_cmd := some x } = x)
    ∧ ((⟨none, true, false, false, false⟩ : ElevEnv).is_root = true →
        install_placements ⟨none, true, false, false, false⟩ [str "a"]
          = .ok ([str "a"].map Placement.asRoot))
    ∧ ((⟨none, true, false, false, false⟩ : ElevEnv).is_root = false →
        (su_command ⟨none, true, false, false, false⟩ = str "sudo"
          ∨ su_command ⟨none, true, false, false, false⟩ = str "doas"
          ∨ su_command ⟨none, true, false, false, false⟩ = str "ssu") →
        install_placements ⟨none, true, false, false, false⟩ [str "a"]
          = .ok ([str "a"].map
              (Placement.elevated (su_command ⟨none, true, false, false, false⟩))))
    ∧ ((⟨none, true, false, false, false⟩ : ElevEnv).is_root = false →
        ¬(su_command ⟨none, true, false, false, false⟩ = str "sudo"
          ∨ su_command ⟨none, true, false, false, false⟩ = str "doas"
          ∨ su_command ⟨none, true, false, false, false⟩ = str "ssu") →
        [str "a"] ≠ [] →
        install_placements ⟨none, true, false, false, false⟩ [str "a"]
          = .error "Couldn't find a command to elevate privileges") :=
  c5_elevation_behavior ⟨none, true, false, false, false⟩ [str "a"]

/-- C4 (counterexample): the manifest is generated from the glob
`{dest_dir}/**/*`, which also returns directories — for a destdir containing
the directory `/usr` and the regular file `/usr/foo`, the manifest lines are
`/usr` and `/usr/foo`, not the regular-file-only enumeration the claim
states. -/
theorem c4_counterexample :
    split_lines (manifest_content (str "/tmp/d")
        [⟨str "/tmp/d/usr", .directory⟩, ⟨str "/tmp/d/usr/foo", .regular⟩])
      = [str "/usr", str "/usr/foo"]
    ∧ split_lines (manifest_content (str "/tmp/d")
        [⟨str "/tmp/d/usr", .directory⟩, ⟨str "/tmp/d/usr/foo", .regular⟩])
      ≠ ([(⟨str "/tmp/d/usr", .directory⟩ : DestEntry),
          ⟨str "/tmp/d/usr/foo", .regular⟩].filter
            (fun e => e.ftype == FileType.regular)).map
          (fun e => remove_occs (str "/tmp/d") e.path) := by
  refine ⟨by decide, by decide⟩

/-- C4 (amended): for every successful build, the manifest contains one line
per glob entry under the destdir — regular files, directories and symlinks
alike — in glob order, each line being the entry's path with every
occurrence of the destdir string removed and a terminating newline
(hypotheses: the destdir string and entry paths contain no newline, as is
the case for real paths). -/
theorem c4_manifest_lines_all_entries (destDir : Str)
    (entries : List DestEntry) (hdnl : nl ∉ destDir)
    (hp : ∀ e ∈ entries, nl ∉ e.path) :
    manifest_content destDir entries
      = (entries.map (fun e => remove_occs destDir e.path ++ [nl])).flatten
    ∧ split_lines (manifest_content destDir entries)
      = entries.map (fun e => remove_occs destDir e.path) := by
  have h1 : manifest_content destDir entries
      = (entries.map (fun e => remove_occs destDir e.path ++ [nl])).flatten := by
    unfold manifest_content
    congr 1
    apply List.map_congr_left
    intro e he
    exact remove_occs_append_nl destDir hdnl e.path (hp e he)
  have H : ∀ es : List DestEntry, (∀ e ∈ es, nl ∉ e.path) →
      split_lines ((es.map (fun e => remove_occs destDir e.path ++ [nl])).flatten)
        = es.map (fun e => remove_occs destDir e.path) := by
    intro es
    induction es with
    | nil => intro _; simp [split_lines]
    | cons e rest ih =>
        intro hes
        have hrest : ∀ x ∈ rest, nl ∉ x.path :=
          fun x hx => hes x (List.mem_cons_of_mem _ hx)
        have hline : nl ∉ remove_occs destDir e.path := fun hmem =>
          (hes e (List.mem_cons_self _ _)) (mem_remove_occs _ _ _ hmem)
        simp only [List.map_cons, List.flatten_cons]
        rw [List.append_assoc, List.singleton_append,
          split_lines_append _ _ hline, ih hrest]
  exact ⟨h1, by rw [h1]; exact H entries hp⟩

/-- C4 witness: the amended manifest description evaluated on a concrete
destdir with a directory and a regular file. -/
theorem c4_manifest_lines_all_entries_witness :
    manifest_content (str "/tmp/d")
        [⟨str "/tmp/d/usr", .directory⟩, ⟨str "/tmp/d/usr/foo", .regular⟩]
      = ([(⟨str "/tmp/d/usr", .directory⟩ : DestEntry),
          ⟨str "/tmp/d/usr/foo", .regular⟩].map
            (fun e => remove_occs (str "/tmp/d") e.path ++ [nl])).flatten
    ∧ split_lines (manifest_content (str "/tmp/d")
        [⟨str "/tmp/d/usr", .directory⟩, ⟨str "/tmp/d/usr/foo", .regular⟩])
      = [(⟨str "/tmp/d/usr", .directory⟩ : DestEntry),
          ⟨str "/tmp/d/usr/foo", .regular⟩].map
          (fun e => remove_occs (str "/tmp/d") e.path) :=
  c4_manifest_lines_all_entries (str "/tmp/d")
    [⟨str "/tmp/d/usr", .directory⟩, ⟨str "/tmp/d/usr/foo", .regular⟩]
    (by decide) (by decide)

/-- C6: for every successful run of the resolver (started at depth ≥ 1, as
the program does), each returned list has only entries of depth ≥ 1, no two
entries sharing a name, and adjacent entries in non-increasing depth order;
moreover `consolidate_deps` collapses duplicates keeping an input copy whose
depth dominates every same-name input entry. -/
theorem c6_resolver_output_invariants (repo : Str → Option Pkg)
    (inst : Str → Str → Bool) (fuel : Nat) (packs : List Pkg) (depth : Nat)
    (vis : List Str) (deps mkdeps : List Pkg) (vis2 : List Str)
    (hdepth : 1 ≤ depth)
    (h : resolve_deps repo inst fuel packs depth vis = .ok (deps, mkdeps, vis2)) :
    ((∀ p ∈ deps, 1 ≤ p.depth) ∧ (∀ p ∈ mkdeps, 1 ≤ p.depth))
    ∧ ((deps.map Pkg.name).Nodup ∧ (mkdeps.map Pkg.name).Nodup)
    ∧ (List.Chain' (fun a b => b.depth ≤ a.depth) deps
        ∧ List.Chain' (fun a b => b.depth ≤ a.depth) mkdeps)
    ∧ (∀ input : List Pkg, ∀ p ∈ consolidate_deps input,
        p ∈ input ∧ ∀ q ∈ input, q.name = p.name → q.depth ≤ p.depth) := by
  obtain ⟨hd, hm⟩ :=
    resolve_deps_depth_ge repo inst fuel packs depth vis deps mkdeps vis2 h
  obtain ⟨rd, rm, hdeq, hmeq⟩ :=
    resolve_deps_ok_shape repo inst fuel packs depth vis deps mkdeps vis2 h
  refine ⟨⟨fun p hp => le_trans hdepth (hd p hp),
      fun p hp => le_trans hdepth (hm p hp)⟩, ⟨?_, ?_⟩, ⟨?_, ?_⟩,
      fun input p hp => mem_consolidate_deps input p hp⟩
  · rw [hdeq]
    have hperm := (sort_by_depth_desc_perm ((consolidate_deps rd).filter
      (fun dep => !((consolidate_deps rm).any
        (fun mk => mk.name == dep.name))))).map Pkg.name
    refine hperm.nodup_iff.mpr ?_
    exact ((List.filter_sublist _).map Pkg.name).nodup (consolidate_deps_nodup rd)
  · rw [hmeq]
    have hperm := (sort_by_depth_desc_perm (consolidate_deps rm)).map Pkg.name
    exact hperm.nodup_iff.mpr (consolidate_deps_nodup rm)
  · rw [hdeq]
    exact sort_by_depth_desc_chain _
  · rw [hmeq]
    exact sort_by_depth_desc_chain _

/-- C6 witness: resolving a package `a` with a runtime and a make dependency
on `b` yields an empty deps list and the singleton mkdeps list `[b@1]`. -/
theorem c6_resolver_output_invariants_witness :
    ((∀ p ∈ ([] : List Pkg), 1 ≤ p.depth)
      ∧ (∀ p ∈ [(⟨str "b", str "1", 1, [], [], [], []⟩ : Pkg)], 1 ≤ p.depth))
    ∧ ((([] : List Pkg).map Pkg.name).Nodup
      ∧ (([(⟨str "b", str "1", 1, [], [], [], []⟩ : Pkg)]).map Pkg.name).Nodup)
    ∧ (List.Chain' (fun a b => b.depth ≤ a.depth) ([] : List Pkg)
        ∧ List.Chain' (fun a b => b.depth ≤ a.depth)
            [(⟨str "b", str "1", 1, [], [], [], []⟩ : Pkg)])
    ∧ (∀ input : List Pkg, ∀ p ∈ consolidate_deps input,
        p ∈ input ∧ ∀ q ∈ input, q.name = p.name → q.depth ≤ p.depth) :=
  c6_resolver_output_invariants
    (fun n => if n = str "b" then
      some ⟨str "b0", str "1", 0, [], [], [], []⟩ else none)
    (fun _ _ => false) 3
    [⟨str "a", str "1", 0, [(str "b", str "1")], [(str "b", str "1")], [], []⟩]
    1 [] [] [⟨str "b", str "1", 1, [], [], [], []⟩] []
    (by decide) rfl

/-- C7: the two lists returned by a successful resolver run are disjoint by
package name — a package reached through both a deps edge and an mkdeps
edge is kept only in the mkdeps result. -/
theorem c7_deps_mkdeps_disjoint (repo : Str → Option Pkg)
    (inst : Str → Str → Bool) (fuel : Nat) (packs : List Pkg) (depth : Nat)
    (vis : List Str) (deps mkdeps : List Pkg) (vis2 : List Str)
    (h : resolve_deps repo inst fuel packs depth vis = .ok (deps, mkdeps, vis2)) :
    ∀ p ∈ deps, ∀ q ∈ mkdeps, p.name ≠ q.name := by
  obtain ⟨rd, rm, hdeq, hmeq⟩ :=
    resolve_deps_ok_shape repo inst fuel packs depth vis deps mkdeps vis2 h
  intro p hp q hq heq
  rw [hdeq] at hp
  rw [hmeq] at hq
  have hp' : p ∈ (consolidate_deps rd).filter
      (fun dep => !((consolidate_deps rm).any
        (fun mk => mk.name == dep.name))) :=
    (sort_by_depth_desc_perm _).mem_iff.mp hp
  have hq' : q ∈ consolidate_deps rm :=
    (sort_by_depth_desc_perm _).mem_iff.mp hq
  obtain ⟨_, hfilt⟩ := List.mem_filter.mp hp'
  rw [Bool.not_eq_true'] at hfilt
  have hall := List.any_eq_false.mp hfilt q hq'
  exact hall (by simp [heq])

/-- C7 witness: resolving `a` with runtime dependency `c` and make
dependency `b` yields deps `[c@1]` and mkdeps `[b@1]`, and the entries of
the two lists have different names. -/
theorem c7_deps_mkdeps_disjoint_witness :
    (⟨str "c", str "1", 1, [], [], [], []⟩ : Pkg).name
      ≠ (⟨str "b", str "1", 1, [], [], [], []⟩ : Pkg).name :=
  c7_deps_mkdeps_disjoint
    (fun n => if n = str "b" then some ⟨str "b0", str "1", 0, [], [], [], []⟩
      else if n = str "c" then some ⟨str "c0", str "1", 0, [], [], [], []⟩
      else none)
    (fun _ _ => false) 3
    [⟨str "a", str "1", 0, [(str "c", str "1")], [(str "b", str "1")], [], []⟩]
    1 [] [⟨str "c", str "1", 1, [], [], [], []⟩]
    [⟨str "b", str "1", 1, [], [], [], []⟩] []
    rfl
    ⟨str "c", str "1", 1, [], [], [], []⟩ (by decide)
    ⟨str "b", str "1", 1, [], [], [], []⟩ (by decide)

end Arc
